import Mathlib

/-!
Verification of the NBT encoding layer of `zuri_nbt` (`src/encoding.rs`,
`src/reader.rs`, `src/writer.rs`) against its natural-language specification.

The byte-level model: a byte source is a list of naturals (each `< 256`),
a byte sink accepts or rejects each byte offset.  Machine integers are
modelled as `Int`/`Nat` with explicit two's-complement conversion
(`toSigned` / `toUnsigned`) and explicit `% 2 ^ w` truncation where the
Rust code relies on fixed-width wrapping.  `f32`/`f64` values are modelled
by their IEEE-754 bit patterns (the code only ever reinterprets bytes).
-/

set_option maxRecDepth 8192

namespace ZuriNbt

/-- Modelled from the spec: `PathPart` of `err.rs` (not under `src/`): a
navigation step, a named compound field or a 0-based element index. -/
inductive PathPart where
  | Field : String → PathPart
  | Element : Nat → PathPart
deriving DecidableEq

/-- Modelled from the spec: the read-error taxonomy of `err.rs` (not under
`src/`): io-failure, unexpected-tag(expected, actual),
sequence-length-violation(max, saw), invalid-utf8, custom-message.
The `saw` argument is the `i32` the reader code passes, hence `Int`. -/
inductive ReadError where
  | IoFail : ReadError
  | UnexpectedTag : String → String → ReadError
  | SeqLengthViolation : Nat → Int → ReadError
  | InvalidUtf8 : ReadError
  | Custom : String → ReadError
deriving DecidableEq

/-- Modelled from the spec: the write-error taxonomy of `err.rs` (not under
`src/`): io-failure, sequence-length-violation(max, saw), custom-message.
Both arguments of the violation are `usize` on the write side, hence `Nat`. -/
inductive WriteError where
  | IoFail : WriteError
  | SeqLengthViolation : Nat → Nat → WriteError
  | Custom : String → WriteError
deriving DecidableEq

/-- Modelled from the spec: `ErrorPath`/`NBTError` of `err.rs` (not under
`src/`): a reason paired with a root-to-leaf path of navigation steps. -/
structure ErrorPath (E : Type) where
  reason : E
  path : List PathPart
deriving DecidableEq

/-- Modelled from the spec: construction with an empty navigation trail. -/
def ErrorPath.new {E : Type} (e : E) : ErrorPath E := ⟨e, []⟩

/-- Modelled from the spec: `prepend` places the part at the root end. -/
def ErrorPath.prepend {E : Type} (err : ErrorPath E) (p : PathPart) : ErrorPath E :=
  ⟨err.reason, p :: err.path⟩

/-- Reader-side state: the remaining input bytes of the byte source, plus a
trace of every `Vec::with_capacity` request made (capacities, in order),
which makes the capacity-guard behaviour observable in the model. -/
structure RState where
  input : List Nat
  allocs : List Nat
deriving DecidableEq

/-- A reader-side operation: mirrors `reader::Res<T>` together with the
mutable `&mut R` byte source (state is returned on error as well, since the
Rust reader keeps whatever it has consumed). -/
abbrev RM (α : Type) : Type := RState → Except (ErrorPath ReadError) α × RState

/-- Records one `Vec::with_capacity(c)` request in the allocation trace. -/
def pushAlloc (c : Nat) (s : RState) : RState :=
  { s with allocs := s.allocs ++ [c] }

/-- `reader.read_exact(&mut buf)` for an `n`-byte buffer: yields the next
`n` bytes, or an I/O error at end of input (the default `read_exact`
consumes whatever remained). -/
def readExact (n : Nat) : RM (List Nat) := fun s =>
  if n ≤ s.input.length then
    (.ok (s.input.take n), { s with input := s.input.drop n })
  else
    (.error (ErrorPath.new .IoFail), { s with input := [] })

/-- `Reader::u8` (trait default, used by all three encodings): a one-byte
exact read. -/
def readU8 : RM Nat := fun s =>
  match readExact 1 s with
  | (.ok buf, s') => (.ok (buf.headD 0), s')
  | (.error e, s') => (.error e, s')

/-- `from_be_bytes`: most-significant byte first. -/
def beToNat (bs : List Nat) : Nat := bs.foldl (fun acc b => acc * 256 + b) 0

/-- `from_le_bytes`: least-significant byte first. -/
def leToNat (bs : List Nat) : Nat := bs.foldr (fun b acc => b + 256 * acc) 0

/-- Reinterpret a `w`-bit pattern as a signed two's-complement value. -/
def toSigned (w : Nat) (u : Nat) : Int :=
  if u < 2 ^ (w - 1) then (u : Int) else (u : Int) - 2 ^ w

/-- The `w`-bit pattern of an integer (`as uW` in Rust). -/
def toUnsigned (w : Nat) (x : Int) : Nat := (x % ((2 : Int) ^ w)).toNat

/-- `usize as i16` (wrapping cast through the low 16 bits). -/
def usizeToI16 (n : Nat) : Int := toSigned 16 (n % 2 ^ 16)

/-- `usize as i32` (wrapping cast through the low 32 bits). -/
def usizeToI32 (n : Nat) : Int := toSigned 32 (n % 2 ^ 32)

/-- `size_of::<i16>()`. -/
def sizeOfI16 : Nat := 2
/-- `size_of::<i32>()`. -/
def sizeOfI32 : Nat := 4
/-- `size_of::<i64>()`. -/
def sizeOfI64 : Nat := 8
/-- `size_of::<f64>()`. -/
def sizeOfF64 : Nat := 8

/-- The three concrete encodings of `encoding.rs`. -/
inductive Enc where
  | be | le | nle
deriving DecidableEq

/-- The shift sequence `(0..35).step_by(7)` of the 32-bit varint loops. -/
def varShifts32 : List Nat := [0, 7, 14, 21, 28]

/-- The shift sequence `(0..70).step_by(7)` of the 64-bit varint loop. -/
def varShifts64 : List Nat := [0, 7, 14, 21, 28, 35, 42, 49, 56, 63]

/-- The varint accumulation loop shared by `NetworkLittleEndian::{i32,i64}`
and the length decode of `NetworkLittleEndian::string`:
`for i in shifts { let b = u8()?; v |= ((b & 0x7f) as uW) << i;
if b & 0x80 == 0 { return v } }` and a custom overflow error when the
shifts are exhausted.  The `% 2 ^ w` models the fixed-width `uW` shift. -/
def varintLoop (w : Nat) : List Nat → Nat → RM Nat
  | [], _ => fun s =>
      (.error (ErrorPath.new (.Custom "varint overflows integer")), s)
  | i :: rest, v => fun s =>
      match readU8 s with
      | (.error e, s') => (.error e, s')
      | (.ok b, s') =>
          let v' := v ||| (((b &&& 0x7f) <<< i) % 2 ^ w)
          if b &&& 0x80 = 0 then (.ok v', s') else varintLoop w rest v' s'

/-- The de-zig-zag step of `NetworkLittleEndian::{i32,i64}`:
`let x = (v >> 1) as iW; if v & 1 != 0 { -x } else { x }`. -/
def dezigzag (w : Nat) (v : Nat) : Int :=
  let x := toSigned w (v >>> 1)
  if v &&& 1 ≠ 0 then -x else x

/-- `Reader::i16` of the three encodings. -/
def Enc.i16 : Enc → RM Int
  | .be => fun s =>
      match readExact sizeOfI16 s with
      | (.ok buf, s') => (.ok (toSigned 16 (beToNat buf)), s')
      | (.error e, s') => (.error e, s')
  | .le => fun s =>
      match readExact sizeOfI16 s with
      | (.ok buf, s') => (.ok (toSigned 16 (leToNat buf)), s')
      | (.error e, s') => (.error e, s')
  | .nle => fun s =>
      match readExact sizeOfI16 s with
      | (.ok buf, s') => (.ok (toSigned 16 (leToNat buf)), s')
      | (.error e, s') => (.error e, s')

/-- `Reader::i32` of the three encodings (zig-zag varint for the network
encoding). -/
def Enc.i32 : Enc → RM Int
  | .be => fun s =>
      match readExact sizeOfI32 s with
      | (.ok buf, s') => (.ok (toSigned 32 (beToNat buf)), s')
      | (.error e, s') => (.error e, s')
  | .le => fun s =>
      match readExact sizeOfI32 s with
      | (.ok buf, s') => (.ok (toSigned 32 (leToNat buf)), s')
      | (.error e, s') => (.error e, s')
  | .nle => fun s =>
      match varintLoop 32 varShifts32 0 s with
      | (.ok v, s') => (.ok (dezigzag 32 v), s')
      | (.error e, s') => (.error e, s')

/-- `Reader::i64` of the three encodings. -/
def Enc.i64 : Enc → RM Int
  | .be => fun s =>
      match readExact sizeOfI64 s with
      | (.ok buf, s') => (.ok (toSigned 64 (beToNat buf)), s')
      | (.error e, s') => (.error e, s')
  | .le => fun s =>
      match readExact sizeOfI64 s with
      | (.ok buf, s') => (.ok (toSigned 64 (leToNat buf)), s')
      | (.error e, s') => (.error e, s')
  | .nle => fun s =>
      match varintLoop 64 varShifts64 0 s with
      | (.ok v, s') => (.ok (dezigzag 64 v), s')
      | (.error e, s') => (.error e, s')

/-- `Reader::f64` of the three encodings, returning the IEEE-754 binary64
bit pattern.  Note: `LittleEndian::f64` and `NetworkLittleEndian::f64` size
their buffer with `size_of::<i64>()`, exactly as in the source. -/
def Enc.f64 : Enc → RM Nat
  | .be => fun s =>
      match readExact sizeOfF64 s with
      | (.ok buf, s') => (.ok (beToNat buf), s')
      | (.error e, s') => (.error e, s')
  | .le => fun s =>
      match readExact sizeOfI64 s with
      | (.ok buf, s') => (.ok (leToNat buf), s')
      | (.error e, s') => (.error e, s')
  | .nle => fun s =>
      match readExact sizeOfI64 s with
      | (.ok buf, s') => (.ok (leToNat buf), s')
      | (.error e, s') => (.error e, s')

/-- Modelled from the spec: a little-endian `f64` reader whose buffer is
sized with `size_of::<f64>()` rather than `size_of::<i64>()` (the
clarified reading of the spec's open question); compared against the
source's readers in the refinement claim. -/
def specF64Le : RM Nat := fun s =>
  match readExact sizeOfF64 s with
  | (.ok buf, s') => (.ok (leToNat buf), s')
  | (.error e, s') => (.error e, s')

/-- A UTF-8 continuation byte (`0x80 ..= 0xBF`). -/
def isCont (b : Nat) : Bool := 0x80 ≤ b && b ≤ 0xBF

/-- Modelled from the spec: validity of a byte sequence as UTF-8
(RFC 3629, with overlong and surrogate encodings rejected), the check
performed by `String::from_utf8` (std, outside `src/`). -/
def utf8Valid : List Nat → Bool
  | [] => true
  | b :: rest =>
    if b ≤ 0x7F then utf8Valid rest
    else if b < 0xC2 then false
    else if b ≤ 0xDF then
      match rest with
      | c1 :: r => isCont c1 && utf8Valid r
      | _ => false
    else if b = 0xE0 then
      match rest with
      | c1 :: c2 :: r => (0xA0 ≤ c1 && c1 ≤ 0xBF) && isCont c2 && utf8Valid r
      | _ => false
    else if b ≤ 0xEC then
      match rest with
      | c1 :: c2 :: r => isCont c1 && isCont c2 && utf8Valid r
      | _ => false
    else if b = 0xED then
      match rest with
      | c1 :: c2 :: r => (0x80 ≤ c1 && c1 ≤ 0x9F) && isCont c2 && utf8Valid r
      | _ => false
    else if b ≤ 0xEF then
      match rest with
      | c1 :: c2 :: r => isCont c1 && isCont c2 && utf8Valid r
      | _ => false
    else if b = 0xF0 then
      match rest with
      | c1 :: c2 :: c3 :: r =>
          (0x90 ≤ c1 && c1 ≤ 0xBF) && isCont c2 && isCont c3 && utf8Valid r
      | _ => false
    else if b ≤ 0xF3 then
      match rest with
      | c1 :: c2 :: c3 :: r => isCont c1 && isCont c2 && isCont c3 && utf8Valid r
      | _ => false
    else if b = 0xF4 then
      match rest with
      | c1 :: c2 :: c3 :: r =>
          (0x80 ≤ c1 && c1 ≤ 0x8F) && isCont c2 && isCont c3 && utf8Valid r
      | _ => false
    else false

/-- The per-element read loop of the composite read primitives:
`for i in 0..len { buf.push(elem(reader).map_err(|e|
e.prepend(Element(i)))?) }`, with `j` the index of the next element. -/
def readElems {α : Type} (rd : RM α) : Nat → Nat → RM (List α)
  | 0, _ => fun s => (.ok [], s)
  | n + 1, j => fun s =>
      match rd s with
      | (.error e, s') => (.error (e.prepend (.Element j)), s')
      | (.ok a, s') =>
          match readElems rd n (j + 1) s' with
          | (.error e, s'') => (.error e, s'')
          | (.ok xs, s'') => (.ok (a :: xs), s'')

/-- `Reader::string` (trait default, used by `BigEndian` and
`LittleEndian`): an `i16` length prefix, rejected when negative with
`SeqLengthViolation(i16::MAX as usize, len as i32)`; a buffer of capacity
`len.min(1024)`; then `len` bytes read one at a time, and a UTF-8 check.
The resulting string is modelled by its UTF-8 bytes. -/
def defaultString (e : Enc) : RM (List Nat) := fun s =>
  match e.i16 s with
  | (.error err, s₁) => (.error err, s₁)
  | (.ok len, s₁) =>
      if len < 0 then
        (.error (ErrorPath.new (.SeqLengthViolation 32767 len)), s₁)
      else
        match readElems readU8 len.toNat 0 (pushAlloc (Nat.min len.toNat 1024) s₁) with
        | (.error err, s₂) => (.error err, s₂)
        | (.ok bytes, s₂) =>
            if utf8Valid bytes then (.ok bytes, s₂)
            else (.error (ErrorPath.new .InvalidUtf8), s₂)

/-- `NetworkLittleEndian::string`: an unsigned varint length prefix (the
same 5-iteration loop as `i32`, without the zig-zag transform), a buffer of
capacity `len.min(1024)`, then `len` bytes and a UTF-8 check. -/
def nleString : RM (List Nat) := fun s =>
  match varintLoop 32 varShifts32 0 s with
  | (.error err, s₁) => (.error err, s₁)
  | (.ok len, s₁) =>
      match readElems readU8 len 0 (pushAlloc (Nat.min len 1024) s₁) with
      | (.error err, s₂) => (.error err, s₂)
      | (.ok bytes, s₂) =>
          if utf8Valid bytes then (.ok bytes, s₂)
          else (.error (ErrorPath.new .InvalidUtf8), s₂)

/-- `Reader::string` with the `NetworkLittleEndian` override. -/
def Enc.string : Enc → RM (List Nat)
  | .be => defaultString .be
  | .le => defaultString .le
  | .nle => nleString

/-- `usize::MAX.min(i32::MAX as usize)` on a 64-bit target, the bound the
vector readers report. -/
def vecMax : Nat := 2147483647

/-- `Reader::u8_vec` (trait default, used by all three encodings). -/
def Enc.u8_vec (e : Enc) : RM (List Nat) := fun s =>
  match e.i32 s with
  | (.error err, s₁) => (.error err, s₁)
  | (.ok len, s₁) =>
      if len < 0 then
        (.error (ErrorPath.new (.SeqLengthViolation vecMax len)), s₁)
      else
        match readElems readU8 len.toNat 0 (pushAlloc (Nat.min len.toNat 1024) s₁) with
        | (.error err, s₂) => (.error err, s₂)
        | (.ok xs, s₂) => (.ok xs, s₂)

/-- `Reader::i32_vec` (trait default): capacity `len.min(1024 / size_of::<i32>())`. -/
def Enc.i32_vec (e : Enc) : RM (List Int) := fun s =>
  match e.i32 s with
  | (.error err, s₁) => (.error err, s₁)
  | (.ok len, s₁) =>
      if len < 0 then
        (.error (ErrorPath.new (.SeqLengthViolation vecMax len)), s₁)
      else
        match readElems e.i32 len.toNat 0
            (pushAlloc (Nat.min len.toNat (1024 / sizeOfI32)) s₁) with
        | (.error err, s₂) => (.error err, s₂)
        | (.ok xs, s₂) => (.ok xs, s₂)

/-- `Reader::i64_vec` (trait default): capacity `len.min(1024 / size_of::<i64>())`. -/
def Enc.i64_vec (e : Enc) : RM (List Int) := fun s =>
  match e.i32 s with
  | (.error err, s₁) => (.error err, s₁)
  | (.ok len, s₁) =>
      if len < 0 then
        (.error (ErrorPath.new (.SeqLengthViolation vecMax len)), s₁)
      else
        match readElems e.i64 len.toNat 0
            (pushAlloc (Nat.min len.toNat (1024 / sizeOfI64)) s₁) with
        | (.error err, s₂) => (.error err, s₂)
        | (.ok xs, s₂) => (.ok xs, s₂)

/-- A byte sink: whether the write of the byte at a given offset succeeds. -/
abbrev Sink : Type := Nat → Bool

/-- A sink that accepts every write. -/
def acceptAll : Sink := fun _ => true

/-- Writer-side state: the bytes written to the sink so far. -/
structure WState where
  written : List Nat
deriving DecidableEq

/-- A writer-side operation: mirrors `writer::Res` with the sink. -/
abbrev WM (α : Type) : Type :=
  Sink → WState → Except (ErrorPath WriteError) α × WState

/-- `buf.write_all(bytes)`: succeeds fully or fails with an I/O error. -/
def writeAll (bs : List Nat) : WM Unit := fun snk st =>
  if (List.range bs.length).all (fun i => snk (st.written.length + i)) then
    (.ok (), { written := st.written ++ bs })
  else
    (.error (ErrorPath.new .IoFail), st)

/-- `Writer::write_u8` (the trait default and the identical
`NetworkLittleEndian` override): one byte, little-endian. -/
def writeU8 (x : Nat) : WM Unit := writeAll [x % 256]

/-- `to_le_bytes` for an `n`-byte value. -/
def leBytesN : Nat → Nat → List Nat
  | 0, _ => []
  | n + 1, u => u % 256 :: leBytesN n (u / 256)

/-- `to_be_bytes` for an `n`-byte value. -/
def beBytesN (n u : Nat) : List Nat := (leBytesN n u).reverse

/-- `Writer::write_i16` of the three encodings. -/
def Enc.write_i16 : Enc → Int → WM Unit
  | .be, x => writeAll (beBytesN sizeOfI16 (toUnsigned 16 x))
  | .le, x => writeAll (leBytesN sizeOfI16 (toUnsigned 16 x))
  | .nle, x => writeAll (leBytesN sizeOfI16 (toUnsigned 16 x))

/-- The zig-zag transform of `NetworkLittleEndian::{write_i32,write_i64}`:
`let mut u = (x as uW) << 1; if x < 0 { u = !u; }` (complement written as
subtraction from `2 ^ w - 1`, exact for a `w`-bit value). -/
def zigzag (w : Nat) (x : Int) : Nat :=
  let u := (toUnsigned w x * 2) % 2 ^ w
  if x < 0 then 2 ^ w - 1 - u else u

/-- The emission loop of the network varint writers:
`while u >= 0x80 { write_u8(u as u8 | 0x80)?; u >>= 7; } write_u8(u as u8)`. -/
def writeUvarint (u : Nat) (snk : Sink) (st : WState) :
    Except (ErrorPath WriteError) Unit × WState :=
  if h : 0x80 ≤ u then
    match writeU8 (u % 256 ||| 0x80) snk st with
    | (.error e, st') => (.error e, st')
    | (.ok _, st') => writeUvarint (u >>> 7) snk st'
  else
    writeU8 (u % 256) snk st
termination_by u
decreasing_by
  simp only [Nat.shiftRight_eq_div_pow]
  exact Nat.div_lt_self (by omega) (by norm_num)

/-- The byte sequence the varint emission loop produces (pure form of
`writeUvarint`, for stating round-trip facts). -/
def uvarintBytes (u : Nat) : List Nat :=
  if h : 0x80 ≤ u then (u % 256 ||| 0x80) :: uvarintBytes (u >>> 7)
  else [u % 256]
termination_by u
decreasing_by
  simp only [Nat.shiftRight_eq_div_pow]
  exact Nat.div_lt_self (by omega) (by norm_num)

/-- `Writer::write_i32` of the three encodings (zig-zag varint for the
network encoding). -/
def Enc.write_i32 : Enc → Int → WM Unit
  | .be, x => writeAll (beBytesN sizeOfI32 (toUnsigned 32 x))
  | .le, x => writeAll (leBytesN sizeOfI32 (toUnsigned 32 x))
  | .nle, x => fun snk st => writeUvarint (zigzag 32 x) snk st

/-- `Writer::write_i64` of the three encodings. -/
def Enc.write_i64 : Enc → Int → WM Unit
  | .be, x => writeAll (beBytesN sizeOfI64 (toUnsigned 64 x))
  | .le, x => writeAll (leBytesN sizeOfI64 (toUnsigned 64 x))
  | .nle, x => fun snk st => writeUvarint (zigzag 64 x) snk st

/-- The per-element write loop of the default composite write primitives:
`for (i, v) in x.iter().enumerate() { write(v).map_err(|e|
e.prepend(Element(i)))?; }`, with `j` the index of the next element. -/
def writeElems {α : Type} (wr : α → WM Unit) : List α → Nat → WM Unit
  | [], _ => fun _ st => (.ok (), st)
  | x :: xs, j => fun snk st =>
      match wr x snk st with
      | (.error e, st') => (.error (e.prepend (.Element j)), st')
      | (.ok _, st') => writeElems wr xs (j + 1) snk st'

/-- The per-element write loop of `NetworkLittleEndian::write_string`:
`for b in x.as_bytes() { self.write_u8(buf, *b)?; }` — no path part is
prepended. -/
def writeElemsNoPath {α : Type} (wr : α → WM Unit) : List α → WM Unit
  | [] => fun _ st => (.ok (), st)
  | x :: xs => fun snk st =>
      match wr x snk st with
      | (.error e, st') => (.error e, st')
      | (.ok _, st') => writeElemsNoPath wr xs snk st'

/-- `Writer::write_string` (trait default, used by `BigEndian` and
`LittleEndian`): reject byte lengths above `i16::MAX` with
`SeqLengthViolation(32767, len)`, else an `i16` length prefix and the bytes
with per-index paths.  The string is modelled by its UTF-8 bytes. -/
def defaultWriteString (e : Enc) (x : List Nat) : WM Unit := fun snk st =>
  if x.length > 32767 then
    (.error (ErrorPath.new (.SeqLengthViolation 32767 x.length)), st)
  else
    match e.write_i16 (usizeToI16 x.length) snk st with
    | (.error err, st') => (.error err, st')
    | (.ok _, st') => writeElems writeU8 x 0 snk st'

/-- `NetworkLittleEndian::write_string`: the same length guard, then the
length as an unsigned varint (`x.len() as u32` emitted by the same loop as
the integer varints) and the bytes with no per-index path. -/
def nleWriteString (x : List Nat) : WM Unit := fun snk st =>
  if x.length > 32767 then
    (.error (ErrorPath.new (.SeqLengthViolation 32767 x.length)), st)
  else
    match writeUvarint (x.length % 2 ^ 32) snk st with
    | (.error err, st') => (.error err, st')
    | (.ok _, st') => writeElemsNoPath writeU8 x snk st'

/-- `Writer::write_string` with the `NetworkLittleEndian` override. -/
def Enc.write_string : Enc → List Nat → WM Unit
  | .be, x => defaultWriteString .be x
  | .le, x => defaultWriteString .le x
  | .nle, x => nleWriteString x

/-- `Writer::write_u8_vec` (trait default, used by all three encodings):
reject lengths above `i32::MAX`, else an `i32` length prefix and the
elements with per-index paths. -/
def Enc.write_u8_vec (e : Enc) (x : List Nat) : WM Unit := fun snk st =>
  if x.length > 2147483647 then
    (.error (ErrorPath.new (.SeqLengthViolation 2147483647 x.length)), st)
  else
    match e.write_i32 (usizeToI32 x.length) snk st with
    | (.error err, st') => (.error err, st')
    | (.ok _, st') => writeElems writeU8 x 0 snk st'

/-- `Writer::write_i32_vec` (trait default). -/
def Enc.write_i32_vec (e : Enc) (x : List Int) : WM Unit := fun snk st =>
  if x.length > 2147483647 then
    (.error (ErrorPath.new (.SeqLengthViolation 2147483647 x.length)), st)
  else
    match e.write_i32 (usizeToI32 x.length) snk st with
    | (.error err, st') => (.error err, st')
    | (.ok _, st') => writeElems (e.write_i32) x 0 snk st'

/-- `Writer::write_i64_vec` (trait default). -/
def Enc.write_i64_vec (e : Enc) (x : List Int) : WM Unit := fun snk st =>
  if x.length > 2147483647 then
    (.error (ErrorPath.new (.SeqLengthViolation 2147483647 x.length)), st)
  else
    match e.write_i32 (usizeToI32 x.length) snk st with
    | (.error err, st') => (.error err, st')
    | (.ok _, st') => writeElems (e.write_i64) x 0 snk st'

/-- Specification device (not from the source): run a reader operation `n`
times, requiring every run to succeed; used to say "the first `n` elements
were read successfully". -/
def iterOk {α : Type} (rd : RM α) : Nat → RState → Option RState
  | 0, s => some s
  | n + 1, s =>
      match rd s with
      | (.ok _, s') => iterOk rd n s'
      | (.error _, _) => none

/-! ## Byte-level arithmetic bridges -/

theorem lor128 (a : Nat) : a % 256 ||| 128 = a % 128 + 128 := by
  have h : ∀ b < 256, b ||| 128 = b % 128 + 128 := by decide
  have h2 := h (a % 256) (Nat.mod_lt _ (by norm_num))
  rwa [Nat.mod_mod_of_dvd a (by norm_num : (128 : Nat) ∣ 256)] at h2

theorem land127 (b : Nat) (hb : b < 256) : b &&& 127 = b % 128 := by
  have h : ∀ c < 256, c &&& 127 = c % 128 := by decide
  exact h b hb

theorem land128_eq_zero (b : Nat) (hb : b < 256) : (b &&& 128 = 0) ↔ b < 128 := by
  have h : ∀ c < 256, ((c &&& 128 = 0) ↔ c < 128) := by decide
  exact h b hb

theorem testBit_add_mul_two_pow (a b k j : Nat) (ha : a < 2 ^ k) :
    (a + b * 2 ^ k).testBit j =
      if j < k then a.testBit j else b.testBit (j - k) := by
  by_cases hj : j < k
  · simp only [hj, if_true, Nat.testBit_to_div_mod]
    have hkj : 2 ^ k = 2 ^ (k - j) * 2 ^ j := by
      rw [← pow_add]
      congr 1
      omega
    have hdiv : (a + b * 2 ^ k) / 2 ^ j = a / 2 ^ j + b * 2 ^ (k - j) := by
      rw [hkj, ← Nat.mul_assoc, Nat.add_mul_div_right _ _ (Nat.pos_pow_of_pos j (by norm_num))]
    rw [hdiv]
    obtain ⟨m, hm⟩ : ∃ m, k - j = m + 1 := ⟨k - j - 1, by omega⟩
    have hsplit : b * 2 ^ (k - j) = b * 2 ^ m * 2 := by
      rw [hm, pow_succ, Nat.mul_assoc]
    have hmod : (a / 2 ^ j + b * 2 ^ (k - j)) % 2 = a / 2 ^ j % 2 := by
      rw [hsplit]
      omega
    rw [hmod]
  · simp only [hj, if_false, Nat.testBit_to_div_mod]
    have hkj : 2 ^ j = 2 ^ k * 2 ^ (j - k) := by
      rw [← pow_add]
      congr 1
      omega
    have hdivk : (a + b * 2 ^ k) / 2 ^ k = b := by
      rw [Nat.add_mul_div_right _ _ (Nat.pos_pow_of_pos k (by norm_num)),
        Nat.div_eq_of_lt ha]
      omega
    rw [hkj, ← Nat.div_div_eq_div_mul, hdivk]

theorem lor_mul_two_pow (a b k : Nat) (ha : a < 2 ^ k) :
    a ||| b * 2 ^ k = a + b * 2 ^ k := by
  apply Nat.eq_of_testBit_eq
  intro j
  rw [Nat.testBit_lor, testBit_add_mul_two_pow a b k j ha, ← Nat.shiftLeft_eq,
    Nat.testBit_shiftLeft]
  by_cases hj : j < k
  · have : ¬ j ≥ k := by omega
    simp [hj, this]
  · have hk : j ≥ k := by omega
    have hja : a.testBit j = false :=
      Nat.testBit_lt_two_pow (lt_of_lt_of_le ha (Nat.pow_le_pow_right (by norm_num) hk))
    simp [hj, hk, hja]

/-! ## Primitive reader facts -/

theorem readU8_cons (b : Nat) (l al : List Nat) :
    readU8 ⟨b :: l, al⟩ = (.ok b, ⟨l, al⟩) := by
  simp [readU8, readExact]

theorem readU8_nil (al : List Nat) :
    readU8 ⟨[], al⟩ = (.error (ErrorPath.new .IoFail), ⟨[], al⟩) := by
  simp [readU8, readExact]

/-! ## Varint emission -/

theorem uvarintBytes_lt (u : Nat) (h : u < 128) : uvarintBytes u = [u] := by
  rw [uvarintBytes]
  simp [Nat.not_le.mpr h, Nat.mod_eq_of_lt (by omega : u < 256)]

theorem uvarintBytes_ge (u : Nat) (h : 128 ≤ u) :
    uvarintBytes u = (u % 128 + 128) :: uvarintBytes (u / 128) := by
  rw [uvarintBytes]
  simp [h, lor128, Nat.shiftRight_eq_div_pow]

theorem writeUvarint_ok (snk : Sink) (hs : ∀ n, snk n = true) (u : Nat) :
    ∀ st, writeUvarint u snk st = (.ok (), ⟨st.written ++ uvarintBytes u⟩) := by
  induction u using Nat.strong_induction_on with
  | _ u ih =>
    intro st
    rw [writeUvarint, uvarintBytes]
    by_cases h : 0x80 ≤ u
    · have hlt : u >>> 7 < u := by
        rw [Nat.shiftRight_eq_div_pow]
        exact Nat.div_lt_self (by omega) (by norm_num)
      have h8 : writeU8 (u % 256 ||| 0x80) snk st =
          (.ok (), ⟨st.written ++ [(u % 256 ||| 0x80) % 256]⟩) := by
        simp [writeU8, writeAll, hs]
      simp only [h, dif_pos, h8]
      rw [ih (u >>> 7) hlt ⟨st.written ++ [(u % 256 ||| 0x80) % 256]⟩]
      have hb : (u % 256 ||| 0x80) % 256 = u % 256 ||| 0x80 := by
        rw [lor128]
        omega
      simp [hb]
    · simp only [h, dif_neg, not_false_iff]
      simp [writeU8, writeAll, hs, Nat.mod_mod_of_dvd]

/-! ## The varint decode loop inverts the emission loop -/

theorem varintLoop_cons (w i : Nat) (tail : List Nat) (v b : Nat) (l al : List Nat) :
    varintLoop w (i :: tail) v ⟨b :: l, al⟩ =
      if b &&& 0x80 = 0 then
        (.ok (v ||| ((b &&& 0x7f) <<< i) % 2 ^ w), ⟨l, al⟩)
      else
        varintLoop w tail (v ||| ((b &&& 0x7f) <<< i) % 2 ^ w) ⟨l, al⟩ := by
  simp [varintLoop, readU8_cons]

theorem varintLoop_uvarint (w : Nat) :
    ∀ (m j u acc : Nat) (rest al : List Nat),
      1 ≤ m →
      u < 2 ^ (7 * m) →
      acc < 2 ^ (7 * j) →
      acc + u * 2 ^ (7 * j) < 2 ^ w →
      varintLoop w ((List.range m).map (fun t => 7 * (j + t))) acc
          ⟨uvarintBytes u ++ rest, al⟩
        = (.ok (acc + u * 2 ^ (7 * j)), ⟨rest, al⟩) := by
  intro m
  induction m with
  | zero =>
    intro j u acc rest al h1 _ _ _
    omega
  | succ m ih =>
    intro j u acc rest al _ hu hacc hbound
    have hupow : u * 2 ^ (7 * j) < 2 ^ w := by omega
    rw [List.range_succ_eq_map, List.map_cons, List.map_map]
    by_cases hsmall : u < 128
    · rw [uvarintBytes_lt u hsmall, List.cons_append, List.nil_append]
      rw [varintLoop_cons]
      have hand : u &&& 127 = u := by
        rw [land127 u (by omega), Nat.mod_eq_of_lt hsmall]
      have hstop : u &&& 128 = 0 := (land128_eq_zero u (by omega)).mpr hsmall
      have hval : acc ||| (u &&& 127) <<< (7 * (j + 0)) % 2 ^ w =
          acc + u * 2 ^ (7 * j) := by
        rw [hand, Nat.shiftLeft_eq, Nat.add_zero,
          Nat.mod_eq_of_lt hupow, lor_mul_two_pow acc u (7 * j) hacc]
      rw [if_pos hstop, hval]
    · have hm : 1 ≤ m := by
        rcases Nat.eq_zero_or_pos m with hm0 | hm0
        · subst hm0
          norm_num at hu
          omega
        · exact hm0
      rw [uvarintBytes_ge u (by omega), List.cons_append]
      rw [varintLoop_cons]
      have hblt : u % 128 + 128 < 256 := by omega
      have hand : (u % 128 + 128) &&& 127 = u % 128 := by
        rw [land127 _ hblt]
        omega
      have hgo : ¬ ((u % 128 + 128) &&& 128 = 0) := by
        rw [land128_eq_zero _ hblt]
        omega
      have hpowj : (2 : Nat) ^ (7 * (j + 1)) = 128 * 2 ^ (7 * j) := by
        have : 7 * (j + 1) = 7 * j + 7 := by ring
        rw [this, pow_add]
        ring
      have hmodlt : u % 128 * 2 ^ (7 * j) < 2 ^ w :=
        lt_of_le_of_lt (Nat.mul_le_mul_right _ (Nat.mod_le u 128)) hupow
      have hval : acc ||| ((u % 128 + 128) &&& 127) <<< (7 * (j + 0)) % 2 ^ w =
          acc + u % 128 * 2 ^ (7 * j) := by
        rw [hand, Nat.shiftLeft_eq, Nat.add_zero,
          Nat.mod_eq_of_lt hmodlt, lor_mul_two_pow acc _ (7 * j) hacc]
      have hmaps : (List.range m).map ((fun t => 7 * (j + t)) ∘ Nat.succ) =
          (List.range m).map (fun t => 7 * (j + 1 + t)) := by
        apply List.map_congr_left
        intro t _
        simp only [Function.comp_apply]
        omega
      have hkey : u % 128 * 2 ^ (7 * j) + u / 128 * 2 ^ (7 * (j + 1)) =
          u * 2 ^ (7 * j) := by
        rw [hpowj]
        conv_rhs => rw [← Nat.mod_add_div u 128]
        ring
      have hdivlt : u / 128 < 2 ^ (7 * m) := by
        rw [Nat.div_lt_iff_lt_mul (by norm_num : (0 : Nat) < 128)]
        have : (2 : Nat) ^ (7 * (m + 1)) = 2 ^ (7 * m) * 128 := by
          have h7 : 7 * (m + 1) = 7 * m + 7 := by ring
          rw [h7, pow_add]
          norm_num
        omega
      have hacc' : acc + u % 128 * 2 ^ (7 * j) < 2 ^ (7 * (j + 1)) := by
        have h127 : u % 128 * 2 ^ (7 * j) ≤ 127 * 2 ^ (7 * j) :=
          Nat.mul_le_mul_right _ (by omega)
        omega
      have ihres := ih (j + 1) (u / 128) (acc + u % 128 * 2 ^ (7 * j)) rest al hm
        hdivlt hacc' (by omega)
      rw [if_neg hgo, hval, hmaps, ihres, Nat.add_assoc, hkey]

theorem varintLoop_decode32 (u : Nat) (hu : u < 2 ^ 32) (rest al : List Nat) :
    varintLoop 32 varShifts32 0 ⟨uvarintBytes u ++ rest, al⟩ = (.ok u, ⟨rest, al⟩) := by
  have hshifts : varShifts32 = (List.range 5).map (fun t => 7 * (0 + t)) := by decide
  have h := varintLoop_uvarint 32 5 0 u 0 rest al (by norm_num)
    (lt_of_lt_of_le hu (by norm_num)) (by norm_num) (by simpa using hu)
  rw [hshifts]
  simpa using h

theorem varintLoop_decode64 (u : Nat) (hu : u < 2 ^ 64) (rest al : List Nat) :
    varintLoop 64 varShifts64 0 ⟨uvarintBytes u ++ rest, al⟩ = (.ok u, ⟨rest, al⟩) := by
  have hshifts : varShifts64 = (List.range 10).map (fun t => 7 * (0 + t)) := by decide
  have h := varintLoop_uvarint 64 10 0 u 0 rest al (by norm_num)
    (lt_of_lt_of_le hu (by norm_num)) (by norm_num) (by simpa using hu)
  rw [hshifts]
  simpa using h

/-! ## Varint overflow -/

theorem varintLoop_overflow (w : Nat) :
    ∀ (shifts bs : List Nat) (v : Nat) (rest al : List Nat),
      bs.length = shifts.length →
      (∀ b ∈ bs, 128 ≤ b ∧ b < 256) →
      varintLoop w shifts v ⟨bs ++ rest, al⟩
        = (.error (ErrorPath.new (.Custom "varint overflows integer")), ⟨rest, al⟩) := by
  intro shifts
  induction shifts with
  | nil =>
    intro bs v rest al hlen _
    rw [List.eq_nil_of_length_eq_zero hlen, List.nil_append]
    rfl
  | cons i tail ih =>
    intro bs v rest al hlen hb
    match bs with
    | [] => simp at hlen
    | b :: bs' =>
      have hbb := hb b (by simp)
      have hgo : ¬ (b &&& 128 = 0) := by
        rw [land128_eq_zero b hbb.2]
        omega
      rw [List.cons_append, varintLoop_cons, if_neg hgo]
      exact ih bs' _ rest al (by simpa using hlen)
        (fun x hx => hb x (by simp [hx]))

/-! ## Zig-zag arithmetic -/

theorem zigzag_lt (w : Nat) (x : Int) : zigzag w x < 2 ^ w := by
  have h : (toUnsigned w x * 2) % 2 ^ w < 2 ^ w :=
    Nat.mod_lt _ (Nat.pos_pow_of_pos _ (by norm_num))
  simp only [zigzag]
  split <;> omega

theorem dezigzag_zigzag (w : Nat) (x : Int)
    (h1 : -(2 ^ w) ≤ x) (h2 : x < 2 ^ w) :
    dezigzag (w + 1) (zigzag (w + 1) x) = if x < 0 then x + 1 else x := by
  have hPI : (((2 ^ w : Nat) : Int)) = 2 ^ w := by push_cast; ring
  rw [← hPI] at h1 h2
  set P : Nat := 2 ^ w with hPdef
  have hPpos : 0 < P := Nat.pos_pow_of_pos _ (by norm_num)
  have hNnat : (2 : Nat) ^ (w + 1) = 2 * P := by rw [hPdef]; ring
  have hNI : ((2 : Int) ^ (w + 1)) = 2 * (P : Int) := by
    rw [hPI]; ring
  have hw1 : w + 1 - 1 = w := by omega
  by_cases hx : x < 0
  · -- negative branch: the wire value is 2 * (-x) - 1
    set b : Nat := (-x).toNat with hbdef
    have hbx : (b : Int) = -x := Int.toNat_of_nonneg (by omega)
    have hb1 : 1 ≤ b := by omega
    have hbP : b ≤ P := by omega
    have hmod : x % (2 * (P : Int)) = x + 2 * (P : Int) := by
      have he := @Int.add_mul_emod_self_left x (2 * (P : Int)) 1
      rw [mul_one] at he
      rw [← he]
      exact Int.emod_eq_of_lt (by omega) (by omega)
    have ha : toUnsigned (w + 1) x = 2 * P - b := by
      unfold toUnsigned
      rw [hNI, hmod]
      omega
    have hu0 : ((2 * P - b) * 2) % (2 * P) = 2 * P - 2 * b := by
      have hsplit : (2 * P - b) * 2 = (2 * P - 2 * b) + 2 * P := by omega
      rw [hsplit, Nat.add_mod_right, Nat.mod_eq_of_lt (by omega)]
    have hz : zigzag (w + 1) x = 2 * b - 1 := by
      simp only [zigzag]
      rw [ha, hNnat, hu0, if_pos hx]
      omega
    simp only [dezigzag]
    rw [hz]
    have hodd : (2 * b - 1) &&& 1 = 1 := by
      rw [Nat.and_one_is_mod]
      omega
    have hsh : (2 * b - 1) >>> 1 = b - 1 := by
      rw [Nat.shiftRight_one]
      omega
    rw [hodd, hsh]
    have hts : toSigned (w + 1) (b - 1) = ((b : Int) - 1) := by
      unfold toSigned
      rw [hw1, ← hPdef, if_pos (by omega : b - 1 < P)]
      omega
    rw [hts, if_pos hx]
    simp only [ne_eq, one_ne_zero, not_false_iff, if_pos]
    omega
  · -- nonnegative branch: the wire value is 2 * x
    have hx0 : 0 ≤ x := by omega
    have ha : toUnsigned (w + 1) x = x.toNat := by
      unfold toUnsigned
      rw [hNI, Int.emod_eq_of_lt hx0 (by omega)]
    have hxP : x.toNat < P := by omega
    have hu0 : (x.toNat * 2) % 2 ^ (w + 1) = x.toNat * 2 := by
      rw [hNnat]
      exact Nat.mod_eq_of_lt (by omega)
    have hz : zigzag (w + 1) x = x.toNat * 2 := by
      simp only [zigzag]
      rw [ha, hu0, if_neg hx]
    simp only [dezigzag]
    rw [hz]
    have heven : (x.toNat * 2) &&& 1 = 0 := by
      rw [Nat.and_one_is_mod]
      omega
    have hsh : (x.toNat * 2) >>> 1 = x.toNat := by
      rw [Nat.shiftRight_one]
      omega
    rw [heven, hsh]
    have hts : toSigned (w + 1) x.toNat = x := by
      unfold toSigned
      rw [hw1, ← hPdef, if_pos hxP]
      omega
    rw [hts, if_neg hx]
    simp

/-! ## Write-side success under an all-accepting sink -/

theorem writeAll_ok (snk : Sink) (hs : ∀ n, snk n = true) (bs : List Nat) (st : WState) :
    writeAll bs snk st = (.ok (), ⟨st.written ++ bs⟩) := by
  simp [writeAll, hs]

theorem writeU8_ok (snk : Sink) (hs : ∀ n, snk n = true) (x : Nat) (st : WState) :
    writeU8 x snk st = (.ok (), ⟨st.written ++ [x % 256]⟩) :=
  writeAll_ok snk hs [x % 256] st

theorem writeElems_writeU8_ok (snk : Sink) (hs : ∀ n, snk n = true) :
    ∀ (xs : List Nat) (j : Nat) (st : WState),
      writeElems writeU8 xs j snk st =
        (.ok (), ⟨st.written ++ xs.map (· % 256)⟩) := by
  intro xs
  induction xs with
  | nil =>
    intro j st
    simp [writeElems]
  | cons y ys ih =>
    intro j st
    simp only [writeElems, writeU8_ok snk hs, ih]
    simp

theorem writeElemsNoPath_writeU8_ok (snk : Sink) (hs : ∀ n, snk n = true) :
    ∀ (xs : List Nat) (st : WState),
      writeElemsNoPath writeU8 xs snk st =
        (.ok (), ⟨st.written ++ xs.map (· % 256)⟩) := by
  intro xs
  induction xs with
  | nil =>
    intro st
    simp [writeElemsNoPath]
  | cons y ys ih =>
    intro st
    simp only [writeElemsNoPath, writeU8_ok snk hs, ih]
    simp

theorem write_i16_ok (e : Enc) (x : Int) (snk : Sink) (hs : ∀ n, snk n = true)
    (st : WState) :
    ∃ st', Enc.write_i16 e x snk st = (.ok (), st') := by
  cases e <;> exact ⟨_, writeAll_ok snk hs _ st⟩

/-! ## The network varint writers, explicitly -/

theorem nle_write_i32_eq (x : Int) (snk : Sink) (hs : ∀ n, snk n = true) (st : WState) :
    Enc.write_i32 .nle x snk st = (.ok (), ⟨st.written ++ uvarintBytes (zigzag 32 x)⟩) :=
  writeUvarint_ok snk hs _ st

theorem nle_write_i64_eq (x : Int) (snk : Sink) (hs : ∀ n, snk n = true) (st : WState) :
    Enc.write_i64 .nle x snk st = (.ok (), ⟨st.written ++ uvarintBytes (zigzag 64 x)⟩) :=
  writeUvarint_ok snk hs _ st

theorem nle_i32_decode (x : Int) (h1 : -(2 ^ 31) ≤ x) (h2 : x < 2 ^ 31)
    (rest al : List Nat) :
    Enc.i32 .nle ⟨uvarintBytes (zigzag 32 x) ++ rest, al⟩ =
      (.ok (if x < 0 then x + 1 else x), ⟨rest, al⟩) := by
  have hd := dezigzag_zigzag 31 x (by norm_num at h1 ⊢; omega) (by norm_num at h2 ⊢; omega)
  norm_num at hd
  simp only [Enc.i32]
  rw [varintLoop_decode32 _ (zigzag_lt 32 x) rest al]
  simp [hd]

theorem nle_i64_decode (x : Int) (h1 : -(2 ^ 63) ≤ x) (h2 : x < 2 ^ 63)
    (rest al : List Nat) :
    Enc.i64 .nle ⟨uvarintBytes (zigzag 64 x) ++ rest, al⟩ =
      (.ok (if x < 0 then x + 1 else x), ⟨rest, al⟩) := by
  have hd := dezigzag_zigzag 63 x (by norm_num at h1 ⊢; omega) (by norm_num at h2 ⊢; omega)
  norm_num at hd
  simp only [Enc.i64]
  rw [varintLoop_decode64 _ (zigzag_lt 64 x) rest al]
  simp [hd]

/-! ## Element-loop failure paths -/

theorem readElems_fail {α : Type} (rd : RM α) :
    ∀ (n count j : Nat) (s s₁ s₂ : RState) (e₀ : ErrorPath ReadError),
      n < count →
      iterOk rd n s = some s₁ →
      rd s₁ = (.error e₀, s₂) →
      readElems rd count j s = (.error (e₀.prepend (.Element (j + n))), s₂) := by
  intro n
  induction n with
  | zero =>
    intro count j s s₁ s₂ e₀ hlt hit hrd
    simp only [iterOk, Option.some_inj] at hit
    subst hit
    obtain ⟨c, rfl⟩ : ∃ c, count = c + 1 := ⟨count - 1, by omega⟩
    simp [readElems, hrd]
  | succ n ih =>
    intro count j s s₁ s₂ e₀ hlt hit hrd
    obtain ⟨c, rfl⟩ : ∃ c, count = c + 1 := ⟨count - 1, by omega⟩
    rcases hrs : rd s with ⟨res, s'⟩
    cases res with
    | error e =>
      simp only [iterOk, hrs] at hit
      exact Option.noConfusion hit
    | ok a =>
      simp only [iterOk, hrs] at hit
      have hrec := ih c (j + 1) s' s₁ s₂ e₀ (by omega) hit hrd
      have hidx : j + 1 + n = j + (n + 1) := by omega
      rw [hidx] at hrec
      simp [readElems, hrs, hrec]

theorem writeElems_fail {α : Type} (wr : α → WM Unit) (snk : Sink) :
    ∀ (pre : List α) (b : α) (post : List α) (j : Nat) (st st₁ st₂ : WState)
      (e₀ : ErrorPath WriteError),
      writeElemsNoPath wr pre snk st = (.ok (), st₁) →
      wr b snk st₁ = (.error e₀, st₂) →
      writeElems wr (pre ++ b :: post) j snk st =
        (.error (e₀.prepend (.Element (j + pre.length))), st₂) := by
  intro pre
  induction pre with
  | nil =>
    intro b post j st st₁ st₂ e₀ hpre hb
    simp only [writeElemsNoPath, Prod.mk.injEq] at hpre
    rw [← hpre.2] at hb
    simp [writeElems, hb]
  | cons y ys ih =>
    intro b post j st st₁ st₂ e₀ hpre hb
    rcases hy : wr y snk st with ⟨res, st'⟩
    cases res with
    | error e =>
      simp only [writeElemsNoPath, hy] at hpre
      simp at hpre
    | ok a =>
      simp only [writeElemsNoPath, hy] at hpre
      have hrec := ih b post (j + 1) st' st₁ st₂ e₀ hpre hb
      have hidx : j + 1 + ys.length = j + (ys.length + 1) := by omega
      rw [hidx] at hrec
      simp [writeElems, hy, hrec]

theorem writeElemsNoPath_fail {α : Type} (wr : α → WM Unit) (snk : Sink) :
    ∀ (pre : List α) (b : α) (post : List α) (st st₁ st₂ : WState)
      (e₀ : ErrorPath WriteError),
      writeElemsNoPath wr pre snk st = (.ok (), st₁) →
      wr b snk st₁ = (.error e₀, st₂) →
      writeElemsNoPath wr (pre ++ b :: post) snk st = (.error e₀, st₂) := by
  intro pre
  induction pre with
  | nil =>
    intro b post st st₁ st₂ e₀ hpre hb
    simp only [writeElemsNoPath, Prod.mk.injEq] at hpre
    rw [← hpre.2] at hb
    simp [writeElemsNoPath, hb]
  | cons y ys ih =>
    intro b post st st₁ st₂ e₀ hpre hb
    rcases hy : wr y snk st with ⟨res, st'⟩
    cases res with
    | error e =>
      simp only [writeElemsNoPath, hy] at hpre
      simp at hpre
    | ok a =>
      simp only [writeElemsNoPath, hy] at hpre
      have hrec := ih b post st' st₁ st₂ e₀ hpre hb
      simp [writeElemsNoPath, hy, hrec]

/-! ## The primitive readers never request an allocation -/

theorem readExact_allocs (n : Nat) (s : RState) :
    ((readExact n s).2).allocs = s.allocs := by
  unfold readExact
  split <;> rfl

theorem readU8_allocs (s : RState) : ((readU8 s).2).allocs = s.allocs := by
  have h2 := readExact_allocs 1 s
  rcases h : readExact 1 s with ⟨res, s'⟩
  rw [h] at h2
  cases res <;> simp only [readU8, h] <;> exact h2

theorem varintLoop_allocs (w : Nat) :
    ∀ (shifts : List Nat) (v : Nat) (s : RState),
      ((varintLoop w shifts v s).2).allocs = s.allocs := by
  intro shifts
  induction shifts with
  | nil =>
    intro v s
    rfl
  | cons i tail ih =>
    intro v s
    have h2 := readU8_allocs s
    rcases h : readU8 s with ⟨res, s'⟩
    rw [h] at h2
    cases res with
    | error e =>
      simp only [varintLoop, h]
      exact h2
    | ok b =>
      simp only [varintLoop, h]
      split
      · exact h2
      · rw [ih _ s', h2]

theorem i16_allocs (e : Enc) (s : RState) : ((e.i16 s).2).allocs = s.allocs := by
  have h2 := readExact_allocs sizeOfI16 s
  rcases h : readExact sizeOfI16 s with ⟨res, s'⟩
  rw [h] at h2
  cases e <;> cases res <;> simp only [Enc.i16, h] <;> exact h2

theorem i32_allocs (e : Enc) (s : RState) : ((e.i32 s).2).allocs = s.allocs := by
  cases e with
  | nle =>
    have h2 := varintLoop_allocs 32 varShifts32 0 s
    rcases h : varintLoop 32 varShifts32 0 s with ⟨res, s'⟩
    rw [h] at h2
    cases res <;> simp only [Enc.i32, h] <;> exact h2
  | be =>
    have h2 := readExact_allocs sizeOfI32 s
    rcases h : readExact sizeOfI32 s with ⟨res, s'⟩
    rw [h] at h2
    cases res <;> simp only [Enc.i32, h] <;> exact h2
  | le =>
    have h2 := readExact_allocs sizeOfI32 s
    rcases h : readExact sizeOfI32 s with ⟨res, s'⟩
    rw [h] at h2
    cases res <;> simp only [Enc.i32, h] <;> exact h2

theorem i64_allocs (e : Enc) (s : RState) : ((e.i64 s).2).allocs = s.allocs := by
  cases e with
  | nle =>
    have h2 := varintLoop_allocs 64 varShifts64 0 s
    rcases h : varintLoop 64 varShifts64 0 s with ⟨res, s'⟩
    rw [h] at h2
    cases res <;> simp only [Enc.i64, h] <;> exact h2
  | be =>
    have h2 := readExact_allocs sizeOfI64 s
    rcases h : readExact sizeOfI64 s with ⟨res, s'⟩
    rw [h] at h2
    cases res <;> simp only [Enc.i64, h] <;> exact h2
  | le =>
    have h2 := readExact_allocs sizeOfI64 s
    rcases h : readExact sizeOfI64 s with ⟨res, s'⟩
    rw [h] at h2
    cases res <;> simp only [Enc.i64, h] <;> exact h2

theorem readElems_allocs {α : Type} (rd : RM α)
    (hrd : ∀ s, ((rd s).2).allocs = s.allocs) :
    ∀ (count j : Nat) (s : RState),
      ((readElems rd count j s).2).allocs = s.allocs := by
  intro count
  induction count with
  | zero =>
    intro j s
    rfl
  | succ c ih =>
    intro j s
    have h2 := hrd s
    rcases h : rd s with ⟨res, s'⟩
    rw [h] at h2
    cases res with
    | error e =>
      simp only [readElems, h]
      exact h2
    | ok a =>
      have h3 := ih (j + 1) s'
      rcases h4 : readElems rd c (j + 1) s' with ⟨res2, s''⟩
      rw [h4] at h3
      cases res2 <;> simp only [readElems, h, h4] <;> exact h3.trans h2

/-! ## Claim theorems -/

/-- Claim C1 — refuted by the code, which is the buggy side: the
NetworkLittleEndian encode-then-decode round trip fails already at `-1`,
well inside the claimed range `[-2^31+1, 2^31-1]`: `write_i32(-1)` emits
`[0x01]`, and the `i32` read of `[0x01]` returns `0`, not `-1` (the decoder
computes `-(v >> 1)` instead of `-(v >> 1) - 1` for an odd accumulator, so
every negative value decodes one too high); likewise for `i64`. -/
theorem c1_roundtrip_fails_at_minus_one :
    Enc.write_i32 .nle (-1) acceptAll ⟨[]⟩ = (.ok (), ⟨[0x01]⟩)
    ∧ Enc.i32 .nle ⟨[0x01], []⟩ = (.ok 0, ⟨[], []⟩)
    ∧ Enc.write_i64 .nle (-1) acceptAll ⟨[]⟩ = (.ok (), ⟨[0x01]⟩)
    ∧ Enc.i64 .nle ⟨[0x01], []⟩ = (.ok 0, ⟨[], []⟩)
    ∧ (0 : Int) ≠ -1 := by
  refine ⟨?_, by rfl, ?_, by rfl, by norm_num⟩
  · simp [Enc.write_i32, writeUvarint, zigzag, toUnsigned, writeU8, writeAll, acceptAll]
  · simp [Enc.write_i64, writeUvarint, zigzag, toUnsigned, writeU8, writeAll, acceptAll]

/-- Claim C2: the NetworkLittleEndian varint boundary values: `write_i32`
emits `0 → [0x00]`, `-1 → [0x01]`, `1 → [0x02]`, `-2 → [0x03]`,
`63 → [0x7E]`, `64 → [0x80 0x01]`, `2^31-1 → [0xFE 0xFF 0xFF 0xFF 0x0F]`;
`write_i64` emits `0 → [0x00]`, `-1 → [0x01]`, `1 → [0x02]` (the sink
accepting every write). -/
theorem c2_varint_boundary_values :
    Enc.write_i32 .nle 0 acceptAll ⟨[]⟩ = (.ok (), ⟨[0x00]⟩)
    ∧ Enc.write_i32 .nle (-1) acceptAll ⟨[]⟩ = (.ok (), ⟨[0x01]⟩)
    ∧ Enc.write_i32 .nle 1 acceptAll ⟨[]⟩ = (.ok (), ⟨[0x02]⟩)
    ∧ Enc.write_i32 .nle (-2) acceptAll ⟨[]⟩ = (.ok (), ⟨[0x03]⟩)
    ∧ Enc.write_i32 .nle 63 acceptAll ⟨[]⟩ = (.ok (), ⟨[0x7E]⟩)
    ∧ Enc.write_i32 .nle 64 acceptAll ⟨[]⟩ = (.ok (), ⟨[0x80, 0x01]⟩)
    ∧ Enc.write_i32 .nle (2 ^ 31 - 1) acceptAll ⟨[]⟩ =
        (.ok (), ⟨[0xFE, 0xFF, 0xFF, 0xFF, 0x0F]⟩)
    ∧ Enc.write_i64 .nle 0 acceptAll ⟨[]⟩ = (.ok (), ⟨[0x00]⟩)
    ∧ Enc.write_i64 .nle (-1) acceptAll ⟨[]⟩ = (.ok (), ⟨[0x01]⟩)
    ∧ Enc.write_i64 .nle 1 acceptAll ⟨[]⟩ = (.ok (), ⟨[0x02]⟩) := by
  refine ⟨?_, ?_, ?_, ?_, ?_, ?_, ?_, ?_, ?_, ?_⟩ <;>
    simp [Enc.write_i32, Enc.write_i64, writeUvarint, zigzag, toUnsigned,
      writeU8, writeAll, acceptAll]

/-- Claim C3: the NetworkLittleEndian `i32` read of a source whose next 5
bytes all have the high bit set fails with custom("varint overflows
integer"), an empty path, having consumed exactly those 5 bytes; `i64`
likewise with 10 such bytes. -/
theorem c3_varint_overflow :
    (∀ (bs rest al : List Nat),
      bs.length = 5 →
      (∀ b ∈ bs, 128 ≤ b ∧ b < 256) →
      Enc.i32 .nle ⟨bs ++ rest, al⟩ =
        (.error (ErrorPath.new (.Custom "varint overflows integer")), ⟨rest, al⟩))
    ∧ (∀ (bs rest al : List Nat),
      bs.length = 10 →
      (∀ b ∈ bs, 128 ≤ b ∧ b < 256) →
      Enc.i64 .nle ⟨bs ++ rest, al⟩ =
        (.error (ErrorPath.new (.Custom "varint overflows integer")), ⟨rest, al⟩)) := by
  constructor
  · intro bs rest al hlen hb
    simp only [Enc.i32]
    rw [varintLoop_overflow 32 varShifts32 bs 0 rest al (by rw [hlen]; rfl) hb]
  · intro bs rest al hlen hb
    simp only [Enc.i64]
    rw [varintLoop_overflow 64 varShifts64 bs 0 rest al (by rw [hlen]; rfl) hb]

/-- Witness for C3 at the concrete sources `[0x80; 5]` and `[0x80; 10]`. -/
theorem c3_varint_overflow_witness :
    Enc.i32 .nle ⟨[0x80, 0x80, 0x80, 0x80, 0x80], []⟩ =
      (.error (ErrorPath.new (.Custom "varint overflows integer")), ⟨[], []⟩)
    ∧ Enc.i64 .nle
        ⟨[0x80, 0x80, 0x80, 0x80, 0x80, 0x80, 0x80, 0x80, 0x80, 0x80], []⟩ =
      (.error (ErrorPath.new (.Custom "varint overflows integer")), ⟨[], []⟩) := by
  constructor
  · have h := c3_varint_overflow.1 [0x80, 0x80, 0x80, 0x80, 0x80] [] []
      (by rfl) (by decide)
    simpa using h
  · have h := c3_varint_overflow.2
      [0x80, 0x80, 0x80, 0x80, 0x80, 0x80, 0x80, 0x80, 0x80, 0x80] [] []
      (by rfl) (by decide)
    simpa using h

/-- Counterexample to claim C4: the claim says the i32 round trip fails
exactly at the single input `-2^31` and at no other input, but it also
fails at `-2`: `write_i32(-2)` emits `[0x03]`, and the `i32` read of
`[0x03]` yields `-1 ≠ -2`. -/
theorem c4_counterexample :
    Enc.write_i32 .nle (-2) acceptAll ⟨[]⟩ = (.ok (), ⟨[0x03]⟩)
    ∧ Enc.i32 .nle ⟨[0x03], []⟩ = (.ok (-1), ⟨[], []⟩)
    ∧ ((-1 : Int) ≠ -2) := by
  refine ⟨?_, by rfl, by norm_num⟩
  simp [Enc.write_i32, writeUvarint, zigzag, toUnsigned, writeU8, writeAll, acceptAll]

/-- Claim C4 as amended: `write_i32(-2^31)` emits `[0xFF 0xFF 0xFF 0xFF
0x0F]` and the `i32` read of those bytes returns `-2^31+1`; the round trip
fails at `-2^31` — but not only there: for every in-range `x` the round
trip returns `x + 1` when `x < 0` and `x` otherwise, so it fails exactly on
the negative inputs. -/
theorem c4_roundtrip_characterization :
    Enc.write_i32 .nle (-(2 ^ 31)) acceptAll ⟨[]⟩ =
      (.ok (), ⟨[0xFF, 0xFF, 0xFF, 0xFF, 0x0F]⟩)
    ∧ Enc.i32 .nle ⟨[0xFF, 0xFF, 0xFF, 0xFF, 0x0F], []⟩ =
      (.ok (-(2 ^ 31) + 1), ⟨[], []⟩)
    ∧ (∀ (x : Int) (pre rest al : List Nat),
        -(2 ^ 31) ≤ x → x < 2 ^ 31 →
        Enc.write_i32 .nle x acceptAll ⟨pre⟩ =
          (.ok (), ⟨pre ++ uvarintBytes (zigzag 32 x)⟩)
        ∧ Enc.i32 .nle ⟨uvarintBytes (zigzag 32 x) ++ rest, al⟩ =
          (.ok (if x < 0 then x + 1 else x), ⟨rest, al⟩)) := by
  refine ⟨?_, by rfl, ?_⟩
  · simp [Enc.write_i32, writeUvarint, zigzag, toUnsigned, writeU8, writeAll, acceptAll]
  · intro x pre rest al h1 h2
    exact ⟨nle_write_i32_eq x acceptAll (fun _ => rfl) ⟨pre⟩,
      nle_i32_decode x h1 h2 rest al⟩

/-- Witness for C4's amended round-trip characterization at `x = -7`:
the wire bytes are `[0x0D]` and the read-back value is `-6 = -7 + 1`. -/
theorem c4_roundtrip_characterization_witness :
    Enc.write_i32 .nle (-7) acceptAll ⟨[]⟩ = (.ok (), ⟨[0x0D]⟩)
    ∧ Enc.i32 .nle ⟨[0x0D], []⟩ = (.ok (-6), ⟨[], []⟩) := by
  have h := c4_roundtrip_characterization.2.2 (-7) [] [] [] (by norm_num) (by norm_num)
  have hz : zigzag 32 (-7) = 13 := by decide
  have hu : uvarintBytes 13 = [13] := by
    rw [uvarintBytes]
    norm_num
  rw [hz, hu] at h
  obtain ⟨h1, h2⟩ := h
  norm_num at h1 h2
  exact ⟨h1, h2⟩

/-- Claim C10: in the NetworkLittleEndian `i32` read and in its string
length decode, payload bits of the fifth varint group above bit 31 are
discarded without error: `[0x80 0x80 0x80 0x80 0x10]` decodes exactly like
`[0x00]` (value `0`; the empty string). -/
theorem c10_high_group_bits_discarded :
    Enc.i32 .nle ⟨[0x80, 0x80, 0x80, 0x80, 0x10], []⟩ = (.ok 0, ⟨[], []⟩)
    ∧ Enc.i32 .nle ⟨[0x00], []⟩ = (.ok 0, ⟨[], []⟩)
    ∧ Enc.string .nle ⟨[0x80, 0x80, 0x80, 0x80, 0x10], []⟩ = (.ok [], ⟨[], [0]⟩)
    ∧ Enc.string .nle ⟨[0x00], []⟩ = (.ok [], ⟨[], [0]⟩) :=
  ⟨rfl, rfl, rfl, rfl⟩

/-- Claim C6: for every encoding, `write_string` on a 32768-byte string
fails with sequence-length-violation(32767, 32768) writing nothing to the
sink, and on a 32767-byte string succeeds whenever the sink accepts every
write. -/
theorem c6_write_string_length_cap :
    (∀ (e : Enc) (x : List Nat) (snk : Sink) (st : WState),
      x.length = 32768 →
      e.write_string x snk st =
        (.error (ErrorPath.new (.SeqLengthViolation 32767 32768)), st))
    ∧ (∀ (e : Enc) (x : List Nat) (st : WState),
      x.length = 32767 →
      ∃ st', e.write_string x acceptAll st = (.ok (), st')) := by
  constructor
  · intro e x snk st hlen
    cases e <;>
      simp only [Enc.write_string, defaultWriteString, nleWriteString, hlen] <;>
      rw [if_pos (by norm_num)]
  · intro e x st hlen
    cases e with
    | be =>
      simp only [Enc.write_string, defaultWriteString, Enc.write_i16]
      rw [if_neg (by omega), writeAll_ok acceptAll (fun _ => rfl)]
      exact ⟨_, writeElems_writeU8_ok acceptAll (fun _ => rfl) x 0 _⟩
    | le =>
      simp only [Enc.write_string, defaultWriteString, Enc.write_i16]
      rw [if_neg (by omega), writeAll_ok acceptAll (fun _ => rfl)]
      exact ⟨_, writeElems_writeU8_ok acceptAll (fun _ => rfl) x 0 _⟩
    | nle =>
      simp only [Enc.write_string, nleWriteString]
      rw [if_neg (by omega), writeUvarint_ok acceptAll (fun _ => rfl)]
      exact ⟨_, writeElemsNoPath_writeU8_ok acceptAll (fun _ => rfl) x _⟩

/-- Witness for C6 at concrete 32768- and 32767-byte strings. -/
theorem c6_write_string_length_cap_witness :
    Enc.write_string .be (List.replicate 32768 97) acceptAll ⟨[]⟩ =
      (.error (ErrorPath.new (.SeqLengthViolation 32767 32768)), ⟨[]⟩)
    ∧ ∃ st', Enc.write_string .nle (List.replicate 32767 97) acceptAll ⟨[]⟩ =
        (.ok (), st') := by
  constructor
  · exact c6_write_string_length_cap.1 .be _ acceptAll ⟨[]⟩
      (by rw [List.length_replicate])
  · exact c6_write_string_length_cap.2 .nle _ ⟨[]⟩
      (by rw [List.length_replicate])

/-- Claim C7: a negative decoded length prefix is rejected with a
sequence-length violation carrying the full bound, and the reader's state
is exactly the post-prefix state (no payload byte is consumed): the
default string reader (BigEndian, LittleEndian) on a negative `i16`
prefix, and `u8_vec`/`i32_vec`/`i64_vec` of every encoding on a negative
`i32` prefix. -/
theorem c7_negative_length_rejected :
    (∀ (e : Enc) (s s₁ : RState) (L : Int),
      e ≠ .nle →
      e.i16 s = (.ok L, s₁) →
      L < 0 →
      Enc.string e s =
        (.error (ErrorPath.new (.SeqLengthViolation 32767 L)), s₁))
    ∧ (∀ (e : Enc) (s s₁ : RState) (L : Int),
      e.i32 s = (.ok L, s₁) →
      L < 0 →
      e.u8_vec s = (.error (ErrorPath.new (.SeqLengthViolation vecMax L)), s₁)
      ∧ e.i32_vec s = (.error (ErrorPath.new (.SeqLengthViolation vecMax L)), s₁)
      ∧ e.i64_vec s = (.error (ErrorPath.new (.SeqLengthViolation vecMax L)), s₁)) := by
  constructor
  · intro e s s₁ L hne hi16 hL
    cases e with
    | nle => exact absurd rfl hne
    | be =>
      simp only [Enc.string, defaultString, hi16]
      rw [if_pos hL]
    | le =>
      simp only [Enc.string, defaultString, hi16]
      rw [if_pos hL]
  · intro e s s₁ L hi32 hL
    refine ⟨?_, ?_, ?_⟩ <;>
      simp only [Enc.u8_vec, Enc.i32_vec, Enc.i64_vec, hi32] <;>
      rw [if_pos hL]

/-- Witness for C7: BigEndian string with prefix `0xFFFF` (= -1), and the
NetworkLittleEndian `u8_vec` with varint prefix `[0x03]` (= -1). -/
theorem c7_negative_length_rejected_witness :
    Enc.string .be ⟨[0xFF, 0xFF], []⟩ =
      (.error (ErrorPath.new (.SeqLengthViolation 32767 (-1))), ⟨[], []⟩)
    ∧ Enc.u8_vec .nle ⟨[0x03], []⟩ =
      (.error (ErrorPath.new (.SeqLengthViolation vecMax (-1))), ⟨[], []⟩) := by
  constructor
  · exact c7_negative_length_rejected.1 .be ⟨[0xFF, 0xFF], []⟩ ⟨[], []⟩ (-1)
      (by decide) (by rfl) (by norm_num)
  · exact (c7_negative_length_rejected.2 .nle ⟨[0x03], []⟩ ⟨[], []⟩ (-1)
      (by rfl) (by norm_num)).1

/-- Claim C8: the LittleEndian and NetworkLittleEndian `f64` readers read
exactly 8 bytes and return the binary64 value whose little-endian
representation those bytes are; both are definitionally equal to the
spec-clarified reader whose buffer is sized by `size_of::<f64>()` instead
of `size_of::<i64>()`. -/
theorem c8_f64_reads_eight_le_bytes :
    Enc.f64 .le = specF64Le
    ∧ Enc.f64 .nle = specF64Le
    ∧ (∀ (bs rest al : List Nat),
        bs.length = 8 →
        Enc.f64 .le ⟨bs ++ rest, al⟩ = (.ok (leToNat bs), ⟨rest, al⟩)
        ∧ Enc.f64 .nle ⟨bs ++ rest, al⟩ = (.ok (leToNat bs), ⟨rest, al⟩)) := by
  refine ⟨rfl, rfl, ?_⟩
  intro bs rest al hlen
  have hre : readExact sizeOfI64 ⟨bs ++ rest, al⟩ = (.ok bs, ⟨rest, al⟩) := by
    simp only [readExact, sizeOfI64]
    rw [if_pos (by simp [hlen]), List.take_left' hlen, List.drop_left' hlen]
  constructor <;> simp only [Enc.f64] <;> rw [hre]

/-- Witness for C8 at a concrete 9-byte source: 8 bytes are consumed, the
ninth remains. -/
theorem c8_f64_reads_eight_le_bytes_witness :
    Enc.f64 .le ⟨[1, 2, 3, 4, 5, 6, 7, 8, 9], []⟩ =
      (.ok (leToNat [1, 2, 3, 4, 5, 6, 7, 8]), ⟨[9], []⟩)
    ∧ Enc.f64 .nle ⟨[1, 2, 3, 4, 5, 6, 7, 8, 9], []⟩ =
      (.ok (leToNat [1, 2, 3, 4, 5, 6, 7, 8]), ⟨[9], []⟩) := by
  have h := c8_f64_reads_eight_le_bytes.2.2 [1, 2, 3, 4, 5, 6, 7, 8] [9] [] (by rfl)
  simpa using h

/-- Claim C9: before any payload byte is read, every composite read
primitive requests exactly one buffer allocation, of capacity
`min(L, 1024)` elements for the byte buffers (string, u8_vec, including
the NetworkLittleEndian string override), `min(L, 1024/4)` for i32 arrays
and `min(L, 1024/8)` for i64 arrays — so a 2-GiB length prefix never
causes more than a 1024-byte up-front reservation. -/
theorem c9_capacity_guard :
    (∀ (e : Enc) (s s₁ : RState) (L : Int),
      e ≠ .nle →
      e.i16 s = (.ok L, s₁) →
      0 ≤ L →
      ((Enc.string e s).2).allocs = s₁.allocs ++ [Nat.min L.toNat 1024]
      ∧ Nat.min L.toNat 1024 ≤ 1024)
    ∧ (∀ (s s₁ : RState) (len : Nat),
      varintLoop 32 varShifts32 0 s = (.ok len, s₁) →
      ((Enc.string .nle s).2).allocs = s₁.allocs ++ [Nat.min len 1024]
      ∧ Nat.min len 1024 ≤ 1024)
    ∧ (∀ (e : Enc) (s s₁ : RState) (L : Int),
      e.i32 s = (.ok L, s₁) →
      0 ≤ L →
      ((e.u8_vec s).2).allocs = s₁.allocs ++ [Nat.min L.toNat 1024]
      ∧ Nat.min L.toNat 1024 ≤ 1024)
    ∧ (∀ (e : Enc) (s s₁ : RState) (L : Int),
      e.i32 s = (.ok L, s₁) →
      0 ≤ L →
      ((e.i32_vec s).2).allocs = s₁.allocs ++ [Nat.min L.toNat (1024 / sizeOfI32)]
      ∧ Nat.min L.toNat (1024 / sizeOfI32) ≤ 256)
    ∧ (∀ (e : Enc) (s s₁ : RState) (L : Int),
      e.i32 s = (.ok L, s₁) →
      0 ≤ L →
      ((e.i64_vec s).2).allocs = s₁.allocs ++ [Nat.min L.toNat (1024 / sizeOfI64)]
      ∧ Nat.min L.toNat (1024 / sizeOfI64) ≤ 128) := by
  refine ⟨?_, ?_, ?_, ?_, ?_⟩
  · intro e s s₁ L hne hi16 hL
    refine ⟨?_, Nat.min_le_right _ _⟩
    have h := readElems_allocs readU8 readU8_allocs L.toNat 0
      (pushAlloc (Nat.min L.toNat 1024) s₁)
    rcases hr : readElems readU8 L.toNat 0 (pushAlloc (Nat.min L.toNat 1024) s₁)
      with ⟨res, s₂⟩
    rw [hr] at h
    cases e with
    | nle => exact absurd rfl hne
    | be =>
      simp only [Enc.string, defaultString, hi16]
      rw [if_neg (by omega)]
      cases res with
      | error err =>
        simp only [hr]
        exact h
      | ok xs =>
        simp only [hr]
        split <;> exact h
    | le =>
      simp only [Enc.string, defaultString, hi16]
      rw [if_neg (by omega)]
      cases res with
      | error err =>
        simp only [hr]
        exact h
      | ok xs =>
        simp only [hr]
        split <;> exact h
  · intro s s₁ len hvar
    refine ⟨?_, Nat.min_le_right _ _⟩
    have h := readElems_allocs readU8 readU8_allocs len 0
      (pushAlloc (Nat.min len 1024) s₁)
    rcases hr : readElems readU8 len 0 (pushAlloc (Nat.min len 1024) s₁)
      with ⟨res, s₂⟩
    rw [hr] at h
    simp only [Enc.string, nleString, hvar]
    cases res with
    | error err =>
      simp only [hr]
      exact h
    | ok xs =>
      simp only [hr]
      split <;> exact h
  · intro e s s₁ L hi32 hL
    refine ⟨?_, Nat.min_le_right _ _⟩
    have h := readElems_allocs readU8 readU8_allocs L.toNat 0
      (pushAlloc (Nat.min L.toNat 1024) s₁)
    rcases hr : readElems readU8 L.toNat 0 (pushAlloc (Nat.min L.toNat 1024) s₁)
      with ⟨res, s₂⟩
    rw [hr] at h
    simp only [Enc.u8_vec, hi32]
    rw [if_neg (by omega)]
    cases res <;> simp only [hr] <;> exact h
  · intro e s s₁ L hi32 hL
    refine ⟨?_, (Nat.min_le_right _ _).trans (by norm_num [sizeOfI32])⟩
    have h := readElems_allocs e.i32 (i32_allocs e) L.toNat 0
      (pushAlloc (Nat.min L.toNat (1024 / sizeOfI32)) s₁)
    rcases hr : readElems e.i32 L.toNat 0
        (pushAlloc (Nat.min L.toNat (1024 / sizeOfI32)) s₁) with ⟨res, s₂⟩
    rw [hr] at h
    simp only [Enc.i32_vec, hi32]
    rw [if_neg (by omega)]
    cases res <;> simp only [hr] <;> exact h
  · intro e s s₁ L hi32 hL
    refine ⟨?_, (Nat.min_le_right _ _).trans (by norm_num [sizeOfI64])⟩
    have h := readElems_allocs e.i64 (i64_allocs e) L.toNat 0
      (pushAlloc (Nat.min L.toNat (1024 / sizeOfI64)) s₁)
    rcases hr : readElems e.i64 L.toNat 0
        (pushAlloc (Nat.min L.toNat (1024 / sizeOfI64)) s₁) with ⟨res, s₂⟩
    rw [hr] at h
    simp only [Enc.i64_vec, hi32]
    rw [if_neg (by omega)]
    cases res <;> simp only [hr] <;> exact h

/-- Witness for C9: a BigEndian `u8_vec` whose length prefix decodes to
`2^31 - 1` (about 2 GiB) requests exactly a 1024-byte reservation. -/
theorem c9_capacity_guard_witness :
    ((Enc.u8_vec .be ⟨[0x7F, 0xFF, 0xFF, 0xFF], []⟩).2).allocs = [1024] := by
  have h := (c9_capacity_guard.2.2.1 .be ⟨[0x7F, 0xFF, 0xFF, 0xFF], []⟩ ⟨[], []⟩
    2147483647 (by rfl) (by norm_num)).1
  simpa using h

/-- Counterexample to claim C5: `NetworkLittleEndian::write_string` does
not prepend `Element(n)`.  With a sink accepting only offset 0, writing the
one-byte string `[97]` writes the length prefix `[0x01]`, then fails while
writing element 0 of the payload — yet the returned error path is `[]`,
whose first part is not `Element(0)`. -/
theorem c5_counterexample :
    Enc.write_string .nle [97] (fun n => decide (n < 1)) ⟨[]⟩ =
      (.error (ErrorPath.new .IoFail), ⟨[0x01]⟩)
    ∧ (ErrorPath.new (WriteError.IoFail)).path = [] := by
  refine ⟨?_, rfl⟩
  simp [Enc.write_string, nleWriteString, writeUvarint, writeElemsNoPath,
    writeU8, writeAll]

/-- Claim C5 as amended: when a composite primitive fails while processing
element `n` of its payload (the prefix stage succeeded, the first `n`
element operations succeeded, the next failed), the returned error is the
element error with `Element(n)` prepended — for the read primitives
string/u8_vec/i32_vec/i64_vec of every encoding and the write primitives
u8_vec/i32_vec/i64_vec of every encoding and write_string of BigEndian and
LittleEndian.  The exception forced by the counterexample:
`NetworkLittleEndian::write_string` propagates the element error with its
path unchanged. -/
theorem c5_element_paths :
    (∀ (e : Enc) (s s₁ s₂ s₃ : RState) (L : Int) (n : Nat) (e₀ : ErrorPath ReadError),
      e ≠ .nle →
      e.i16 s = (.ok L, s₁) →
      0 ≤ L →
      n < L.toNat →
      iterOk readU8 n (pushAlloc (Nat.min L.toNat 1024) s₁) = some s₂ →
      readU8 s₂ = (.error e₀, s₃) →
      Enc.string e s = (.error (e₀.prepend (.Element n)), s₃))
    ∧ (∀ (s s₁ s₂ s₃ : RState) (len n : Nat) (e₀ : ErrorPath ReadError),
      varintLoop 32 varShifts32 0 s = (.ok len, s₁) →
      n < len →
      iterOk readU8 n (pushAlloc (Nat.min len 1024) s₁) = some s₂ →
      readU8 s₂ = (.error e₀, s₃) →
      Enc.string .nle s = (.error (e₀.prepend (.Element n)), s₃))
    ∧ (∀ (e : Enc) (s s₁ s₂ s₃ : RState) (L : Int) (n : Nat) (e₀ : ErrorPath ReadError),
      e.i32 s = (.ok L, s₁) →
      0 ≤ L →
      n < L.toNat →
      iterOk readU8 n (pushAlloc (Nat.min L.toNat 1024) s₁) = some s₂ →
      readU8 s₂ = (.error e₀, s₃) →
      e.u8_vec s = (.error (e₀.prepend (.Element n)), s₃))
    ∧ (∀ (e : Enc) (s s₁ s₂ s₃ : RState) (L : Int) (n : Nat) (e₀ : ErrorPath ReadError),
      e.i32 s = (.ok L, s₁) →
      0 ≤ L →
      n < L.toNat →
      iterOk e.i32 n (pushAlloc (Nat.min L.toNat (1024 / sizeOfI32)) s₁) = some s₂ →
      e.i32 s₂ = (.error e₀, s₃) →
      e.i32_vec s = (.error (e₀.prepend (.Element n)), s₃))
    ∧ (∀ (e : Enc) (s s₁ s₂ s₃ : RState) (L : Int) (n : Nat) (e₀ : ErrorPath ReadError),
      e.i32 s = (.ok L, s₁) →
      0 ≤ L →
      n < L.toNat →
      iterOk e.i64 n (pushAlloc (Nat.min L.toNat (1024 / sizeOfI64)) s₁) = some s₂ →
      e.i64 s₂ = (.error e₀, s₃) →
      e.i64_vec s = (.error (e₀.prepend (.Element n)), s₃))
    ∧ (∀ (e : Enc) (x pre post : List Nat) (b : Nat) (snk : Sink)
        (st st₁ st₂ st₃ : WState) (e₀ : ErrorPath WriteError),
      e ≠ .nle →
      x = pre ++ b :: post →
      ¬ x.length > 32767 →
      e.write_i16 (usizeToI16 x.length) snk st = (.ok (), st₁) →
      writeElemsNoPath writeU8 pre snk st₁ = (.ok (), st₂) →
      writeU8 b snk st₂ = (.error e₀, st₃) →
      e.write_string x snk st = (.error (e₀.prepend (.Element pre.length)), st₃))
    ∧ (∀ (x pre post : List Nat) (b : Nat) (snk : Sink)
        (st st₁ st₂ st₃ : WState) (e₀ : ErrorPath WriteError),
      x = pre ++ b :: post →
      ¬ x.length > 32767 →
      writeUvarint (x.length % 2 ^ 32) snk st = (.ok (), st₁) →
      writeElemsNoPath writeU8 pre snk st₁ = (.ok (), st₂) →
      writeU8 b snk st₂ = (.error e₀, st₃) →
      Enc.write_string .nle x snk st = (.error e₀, st₃))
    ∧ (∀ (e : Enc) (x pre post : List Nat) (b : Nat) (snk : Sink)
        (st st₁ st₂ st₃ : WState) (e₀ : ErrorPath WriteError),
      x = pre ++ b :: post →
      ¬ x.length > 2147483647 →
      e.write_i32 (usizeToI32 x.length) snk st = (.ok (), st₁) →
      writeElemsNoPath writeU8 pre snk st₁ = (.ok (), st₂) →
      writeU8 b snk st₂ = (.error e₀, st₃) →
      e.write_u8_vec x snk st = (.error (e₀.prepend (.Element pre.length)), st₃))
    ∧ (∀ (e : Enc) (x pre post : List Int) (b : Int) (snk : Sink)
        (st st₁ st₂ st₃ : WState) (e₀ : ErrorPath WriteError),
      x = pre ++ b :: post →
      ¬ x.length > 2147483647 →
      e.write_i32 (usizeToI32 x.length) snk st = (.ok (), st₁) →
      writeElemsNoPath (e.write_i32) pre snk st₁ = (.ok (), st₂) →
      e.write_i32 b snk st₂ = (.error e₀, st₃) →
      e.write_i32_vec x snk st = (.error (e₀.prepend (.Element pre.length)), st₃))
    ∧ (∀ (e : Enc) (x pre post : List Int) (b : Int) (snk : Sink)
        (st st₁ st₂ st₃ : WState) (e₀ : ErrorPath WriteError),
      x = pre ++ b :: post →
      ¬ x.length > 2147483647 →
      e.write_i32 (usizeToI32 x.length) snk st = (.ok (), st₁) →
      writeElemsNoPath (e.write_i64) pre snk st₁ = (.ok (), st₂) →
      e.write_i64 b snk st₂ = (.error e₀, st₃) →
      e.write_i64_vec x snk st = (.error (e₀.prepend (.Element pre.length)), st₃)) := by
  refine ⟨?_, ?_, ?_, ?_, ?_, ?_, ?_, ?_, ?_, ?_⟩
  · intro e s s₁ s₂ s₃ L n e₀ hne hi16 hL hn hiter hrd
    have hloop := readElems_fail readU8 n L.toNat 0
      (pushAlloc (Nat.min L.toNat 1024) s₁) s₂ s₃ e₀ hn hiter hrd
    rw [Nat.zero_add] at hloop
    cases e with
    | nle => exact absurd rfl hne
    | be =>
      simp only [Enc.string, defaultString, hi16]
      rw [if_neg (by omega), hloop]
    | le =>
      simp only [Enc.string, defaultString, hi16]
      rw [if_neg (by omega), hloop]
  · intro s s₁ s₂ s₃ len n e₀ hvar hn hiter hrd
    have hloop := readElems_fail readU8 n len 0
      (pushAlloc (Nat.min len 1024) s₁) s₂ s₃ e₀ hn hiter hrd
    rw [Nat.zero_add] at hloop
    simp only [Enc.string, nleString, hvar]
    rw [hloop]
  · intro e s s₁ s₂ s₃ L n e₀ hi32 hL hn hiter hrd
    have hloop := readElems_fail readU8 n L.toNat 0
      (pushAlloc (Nat.min L.toNat 1024) s₁) s₂ s₃ e₀ hn hiter hrd
    rw [Nat.zero_add] at hloop
    simp only [Enc.u8_vec, hi32]
    rw [if_neg (by omega), hloop]
  · intro e s s₁ s₂ s₃ L n e₀ hi32 hL hn hiter hrd
    have hloop := readElems_fail e.i32 n L.toNat 0
      (pushAlloc (Nat.min L.toNat (1024 / sizeOfI32)) s₁) s₂ s₃ e₀ hn hiter hrd
    rw [Nat.zero_add] at hloop
    simp only [Enc.i32_vec, hi32]
    rw [if_neg (by omega), hloop]
  · intro e s s₁ s₂ s₃ L n e₀ hi32 hL hn hiter hrd
    have hloop := readElems_fail e.i64 n L.toNat 0
      (pushAlloc (Nat.min L.toNat (1024 / sizeOfI64)) s₁) s₂ s₃ e₀ hn hiter hrd
    rw [Nat.zero_add] at hloop
    simp only [Enc.i64_vec, hi32]
    rw [if_neg (by omega), hloop]
  · intro e x pre post b snk st st₁ st₂ st₃ e₀ hne hx hguard hpre hnp hb
    have hloop := writeElems_fail writeU8 snk pre b post 0 st₁ st₂ st₃ e₀ hnp hb
    rw [Nat.zero_add] at hloop
    cases e with
    | nle => exact absurd rfl hne
    | be =>
      simp only [Enc.write_string, defaultWriteString]
      rw [if_neg hguard, hpre, hx]
      exact hloop
    | le =>
      simp only [Enc.write_string, defaultWriteString]
      rw [if_neg hguard, hpre, hx]
      exact hloop
  · intro x pre post b snk st st₁ st₂ st₃ e₀ hx hguard hpre hnp hb
    have hloop := writeElemsNoPath_fail writeU8 snk pre b post st₁ st₂ st₃ e₀ hnp hb
    simp only [Enc.write_string, nleWriteString]
    rw [if_neg hguard, hpre, hx]
    exact hloop
  · intro e x pre post b snk st st₁ st₂ st₃ e₀ hx hguard hpre hnp hb
    have hloop := writeElems_fail writeU8 snk pre b post 0 st₁ st₂ st₃ e₀ hnp hb
    rw [Nat.zero_add] at hloop
    simp only [Enc.write_u8_vec]
    rw [if_neg hguard, hpre, hx]
    exact hloop
  · intro e x pre post b snk st st₁ st₂ st₃ e₀ hx hguard hpre hnp hb
    have hloop := writeElems_fail (e.write_i32) snk pre b post 0 st₁ st₂ st₃ e₀ hnp hb
    rw [Nat.zero_add] at hloop
    simp only [Enc.write_i32_vec]
    rw [if_neg hguard, hpre, hx]
    exact hloop
  · intro e x pre post b snk st st₁ st₂ st₃ e₀ hx hguard hpre hnp hb
    have hloop := writeElems_fail (e.write_i64) snk pre b post 0 st₁ st₂ st₃ e₀ hnp hb
    rw [Nat.zero_add] at hloop
    simp only [Enc.write_i64_vec]
    rw [if_neg hguard, hpre, hx]
    exact hloop

/-- Witness for C5's amended statement: a BigEndian `u8_vec` read that
fails at element 1 (after one good payload byte the source is empty), and
a BigEndian `write_u8_vec` whose sink rejects offset 5, failing at element
1; both errors carry `Element(1)` as the first path part. -/
theorem c5_element_paths_witness :
    Enc.u8_vec .be ⟨[0, 0, 0, 2, 7], []⟩ =
      (.error ((ErrorPath.new .IoFail).prepend (.Element 1)), ⟨[], [2]⟩)
    ∧ Enc.write_u8_vec .be [5, 6] (fun n => decide (n < 5)) ⟨[]⟩ =
      (.error ((ErrorPath.new .IoFail).prepend (.Element 1)), ⟨[0, 0, 0, 2, 5]⟩) := by
  constructor
  · exact c5_element_paths.2.2.1 .be ⟨[0, 0, 0, 2, 7], []⟩ ⟨[7], []⟩ ⟨[], [2]⟩
      ⟨[], [2]⟩ 2 1 (ErrorPath.new .IoFail) (by rfl) (by norm_num) (by norm_num)
      (by rfl) (by rfl)
  · exact c5_element_paths.2.2.2.2.2.2.2.1 .be [5, 6] [5] [] 6
      (fun n => decide (n < 5)) ⟨[]⟩ ⟨[0, 0, 0, 2]⟩ ⟨[0, 0, 0, 2, 5]⟩
      ⟨[0, 0, 0, 2, 5]⟩ (ErrorPath.new .IoFail) (by rfl) (by norm_num)
      (by rfl) (by rfl) (by rfl)

end ZuriNbt
